import Mathlib

/-!
# Verification of the Cofounder backend core

Shallow embedding of the Phase Orchestrator
(`backend/services/orchestrator/pipeline.py`) and the Sandbox Execution
Engine (`backend/services/sandbox/docker_manager.py`), together with
proofs about the behaviour claimed in the specification.

Conventions:
* Python strings are embedded as `List Char` (code points), wrapped in
  `String` at the interfaces.
* The regular-expression `DECISION_PATTERN` is embedded as an explicit
  backtracking matcher (`matchElems`) over a pattern AST mirroring the
  regex literally, with Python `re` semantics: greedy `\s*` tries the
  longest consumption first, lazy `(.+?)` tries the shortest first, an
  alternation tries its branches left to right, and `finditer` scans
  left to right resuming at the end of each match.
* `uuid.uuid4()` is modelled by a generator parameter `gen : Nat → String`
  handing out the value of the i-th call.
* The async SQLAlchemy session is modelled by explicit state passing:
  `Db` is the committed store, a pending list holds flushed-but-uncommitted
  rows, and `session.commit()` merges them; when an exception propagates
  out of a handler the session context manager rolls the transaction back,
  so the committed store is returned unchanged.
-/

namespace Cofounder

/-- Python `\s` on ASCII: space, tab, newline, carriage return,
vertical tab, form feed. -/
def isPyWs (c : Char) : Bool :=
  c == ' ' || c == '\t' || c == '\n' || c == '\r' || c == '\x0b' || c == '\x0c'

/-- Python `str.strip()`: remove leading and trailing whitespace. -/
def pyStrip (s : List Char) : List Char :=
  ((s.dropWhile isPyWs).reverse.dropWhile isPyWs).reverse

/-- Length of the maximal run of whitespace characters at the front of `s`:
the candidate consumptions of a greedy `\s*`. -/
def leadingWs (s : List Char) : Nat :=
  (s.takeWhile isPyWs).length

/-- Try `f a`, `f (a+1)`, ..., `f (a+n-1)` in order and return the first
success: the exploration order of a lazy quantifier. -/
def firstSome (f : Nat → Option α) : Nat → Nat → Option α
  | _, 0 => none
  | a, n + 1 => (f a).orElse fun _ => firstSome f (a + 1) n

/-- Try `f k`, `f (k-1)`, ..., `f 0` in order and return the first
success: the exploration order of a greedy quantifier. -/
def firstSomeDown (f : Nat → Option α) : Nat → Option α
  | 0 => f 0
  | k + 1 => (f (k + 1)).orElse fun _ => firstSomeDown f k

/-- One element of `DECISION_PATTERN` (`pipeline.py` lines 37-45):
a literal, a greedy `\s*`, a lazy capturing `(.+?)` under `re.DOTALL`,
or the final `(?:\n\n|\Z)`. -/
inductive RElem where
  | lit (l : List Char)
  | wsStar
  | dotLazy
  | nlnlOrEnd
deriving DecidableEq

/-- Backtracking matcher for a sequence of pattern elements, anchored at
the start of `s`.  Returns the captured groups in order and the rest of
the input after the match.  The continuation of every backtracking choice
is the whole remaining element list, exactly as in Python's `re` engine. -/
def matchElems : List RElem → List Char → List (List Char) →
    Option (List (List Char) × List Char)
  | [], s, gs => some (gs, s)
  | .lit l :: rest, s, gs =>
      if l.isPrefixOf s then matchElems rest (s.drop l.length) gs else none
  | .wsStar :: rest, s, gs =>
      firstSomeDown (fun k => matchElems rest (s.drop k) gs) (leadingWs s)
  | .dotLazy :: rest, s, gs =>
      firstSome (fun k => matchElems rest (s.drop k) (gs ++ [s.take k])) 1 s.length
  | .nlnlOrEnd :: rest, s, gs =>
      (if ['\n', '\n'].isPrefixOf s then matchElems rest (s.drop 2) gs else none).orElse
        fun _ => if s.isEmpty then matchElems rest s gs else none

/-- `DECISION_PATTERN` from `pipeline.py` lines 37-45, element by element:
`###\s*🎯\s*Decision Required:\s*\n` `\*\*(.+?)\*\*\s*\n\n`
`\*\*Option A:\s*(.+?)\*\*\s*\n` `(.+?)\n\n`
`\*\*Option B:\s*(.+?)\*\*\s*\n` `(.+?)(?:\n\n|\Z)` with `re.DOTALL`. -/
def decisionPattern : List RElem :=
  [ .lit "###".data, .wsStar, .lit "🎯".data, .wsStar,
    .lit "Decision Required:".data, .wsStar, .lit "\n".data,
    .lit "**".data, .dotLazy, .lit "**".data, .wsStar, .lit "\n\n".data,
    .lit "**Option A:".data, .wsStar, .dotLazy, .lit "**".data, .wsStar, .lit "\n".data,
    .dotLazy, .lit "\n\n".data,
    .lit "**Option B:".data, .wsStar, .dotLazy, .lit "**".data, .wsStar, .lit "\n".data,
    .dotLazy, .nlnlOrEnd ]

/-- `finditer` scan: try a match at each position left to right; on a match,
record its groups and resume at the end of the match (advancing at least one
character on an empty match).  `fuel` bounds the number of scan steps. -/
def findAllAux : Nat → List Char → List (List (List Char))
  | 0, _ => []
  | fuel + 1, s =>
      match matchElems decisionPattern s [] with
      | some (gs, rest) =>
          gs :: (if rest.length < s.length then findAllAux fuel rest
                 else findAllAux fuel (s.drop 1))
      | none =>
          match s with
          | [] => []
          | _ :: t => findAllAux fuel t

/-- All matches of `DECISION_PATTERN` in `s`, in scan order. -/
def findAll (s : List Char) : List (List (List Char)) :=
  findAllAux (s.length + 1) s

/-- One option of a Decision Card: the dict built in `pipeline.py`
lines 59-68. -/
structure DecisionOpt where
  label : String
  value : String
  description : String
deriving DecidableEq

/-- A Decision Card: the dict built in `pipeline.py` lines 55-70. -/
structure Decision where
  id : String
  question : String
  options : List DecisionOpt
deriving DecidableEq

/-- Build one decision dict from the five captured groups of a match
(`pipeline.py` lines 55-70); `gid` is the fresh `uuid.uuid4()` string. -/
def decisionOfMatch (gid : String) (gs : List (List Char)) : Decision :=
  { id := gid
    question := ⟨pyStrip (gs.getD 0 [])⟩
    options :=
      [ { label := ⟨pyStrip (gs.getD 1 [])⟩, value := "option_a",
          description := ⟨pyStrip (gs.getD 2 [])⟩ },
        { label := ⟨pyStrip (gs.getD 3 [])⟩, value := "option_b",
          description := ⟨pyStrip (gs.getD 4 [])⟩ } ] }

/-- `parseDecisionCards` (`pipeline.py` lines 48-71).  `gen i` models the
string returned by the i-th call of `uuid.uuid4()` during this invocation. -/
def parseDecisionCards (gen : Nat → String) (content : String) : List Decision :=
  (findAll content.data).enum.map fun p => decisionOfMatch (gen p.1) p.2

/-- The id-independent part of a Decision, used to state determinism of
the extraction up to the freshly generated ids. -/
structure DecisionCore where
  question : String
  options : List DecisionOpt
deriving DecidableEq

/-- Forget the freshly generated id of a Decision. -/
def Decision.core (d : Decision) : DecisionCore :=
  { question := d.question, options := d.options }

/-- The finalize trigger phrases (`pipeline.py` lines 76-81). -/
def triggers : List String :=
  [ "finalize_architecture",
    "all constraints are locked",
    "generate the architecture diagrams",
    "I will now generate the architecture" ]

/-- ASCII `str.lower()`. -/
def pyLower (s : List Char) : List Char :=
  s.map Char.toLower

/-- Python substring containment `needle in hay`. -/
def containsSub (needle : List Char) : List Char → Bool
  | [] => needle.isEmpty
  | c :: t => needle.isPrefixOf (c :: t) || containsSub needle t

/-- `detectFinalize` (`pipeline.py` lines 74-83): case-insensitive substring
match against the trigger list. -/
def detectFinalize (content : String) : Bool :=
  triggers.any fun t => containsSub (pyLower t.data) (pyLower content.data)

/-! ## Orchestrator data model

`core/models.py`: a `Conversation` owns a phase, a `Message` has a role,
content and optional JSON metadata.  Rows are strictly ordered by creation
time, ties broken by insertion order; the committed store `Db` keeps them
as a list in exactly that order. -/

/-- The JSON metadata attached to a message: either the decision list of an
assistant message (`pipeline.py` line 163) or the decision-response record
of a hidden message (`pipeline.py` line 246). -/
inductive Metadata where
  | decisions (ds : List Decision)
  | decisionResponse (decisionId selectedValue : String)
deriving DecidableEq

/-- A persisted message row (`core/models.py` `Message`). -/
structure Msg where
  conversationId : String
  role : String
  content : String
  metadata : Option Metadata
deriving DecidableEq

/-- A persisted conversation row (`core/models.py` `Conversation`),
restricted to the fields the orchestrator touches. -/
structure Conv where
  id : String
  phase : String
deriving DecidableEq

/-- The committed database state: conversations and messages, the latter in
creation (= insertion) order. -/
structure Db where
  convs : List Conv
  msgs : List Msg
deriving DecidableEq

/-- One `{role, content}` pair of the LLM chat history. -/
structure ChatEntry where
  role : String
  content : String
deriving DecidableEq

/-- A WebSocket notification emitted through `manager.sendEvent`, restricted
to the event types the per-turn algorithm emits. -/
inductive Event where
  | chatMessage (role content : String) (metadata : Option (List Decision))
  | decisionRequired (d : Decision)
  | phaseChange (fromPhase toPhase : String)
deriving DecidableEq

/-- Recognizer for `phase_change` events. -/
def isPhaseChangeEvent : Event → Bool
  | .phaseChange _ _ => true
  | _ => false

/-- Modelled from the spec: the role-specific system preamble
`COFOUNDER_SYSTEM_PROMPT` is loaded from a prompt file
(`services/llm/prompts/cofounder_system.txt`) that is not part of the
embedded code; its exact text is irrelevant to every claim, so it is an
arbitrary fixed string. -/
def COFOUNDER_SYSTEM_PROMPT : String :=
  "cofounder system prompt"

/-- `buildMessageHistory` (`pipeline.py` lines 88-111): load the messages of
the conversation in creation order, start from the system preamble, remap
`hidden` to `user`, and keep only the roles `user`, `assistant`, `system`. -/
def buildMessageHistory (msgs : List Msg) (conversationId : String) : List ChatEntry :=
  ((msgs.filter fun m => m.conversationId == conversationId).foldl
    (fun history m =>
      let role := if m.role == "hidden" then "user" else m.role
      if role == "user" || role == "assistant" || role == "system" then
        history ++ [⟨role, m.content⟩]
      else history)
    [⟨"system", COFOUNDER_SYSTEM_PROMPT⟩])

/-- The phase update of `pipeline.py` lines 189-191: `session.get` the
conversation and, when it exists, overwrite its phase with `architecture`. -/
def updatePhase (convs : List Conv) (conversationId : String) : List Conv :=
  convs.map fun c =>
    if c.id == conversationId then { c with phase := "architecture" } else c

/-- `handleUserMessage` (`pipeline.py` lines 116-203), entered with a list of
already flushed but uncommitted rows of the same session (`pending` — empty
for a direct call, the hidden message when re-entered from
`handleDecisionResponse`).

The first component of the result is the committed store when the call
returns: the pipeline commits exactly once, at line 202, after all writes
and the optional phase update; if the LLM invocation raises, the exception
propagates, the session context manager rolls the flushed rows back, and
the committed store is unchanged.  `llm` models the
`chatCompletion(COFOUNDER, history, ...)` capability with failure as
`Except.error`. -/
def handleUserMessageFrom (gen : Nat → String)
    (llm : List ChatEntry → Except String String) (db : Db) (pending : List Msg)
    (conversationId userContent : String) :
    Db × Except String (List Event × String) :=
  let userMsg : Msg := ⟨conversationId, "user", userContent, none⟩
  let sessionMsgs := db.msgs ++ pending ++ [userMsg]
  let history := buildMessageHistory sessionMsgs conversationId
  match llm history with
  | .error e => (db, .error e)
  | .ok assistantContent =>
    let decisions := parseDecisionCards gen assistantContent
    let shouldFinalize := detectFinalize assistantContent
    let meta : Option (List Decision) :=
      if decisions.isEmpty then none else some decisions
    let assistantMsg : Msg :=
      ⟨conversationId, "assistant", assistantContent, meta.map Metadata.decisions⟩
    let events :=
      Event.chatMessage "assistant" assistantContent meta ::
        decisions.map Event.decisionRequired
    let events :=
      if shouldFinalize then
        events ++ [Event.phaseChange "negotiation" "architecture"]
      else events
    let convs :=
      if shouldFinalize then updatePhase db.convs conversationId else db.convs
    (⟨convs, sessionMsgs ++ [assistantMsg]⟩, .ok (events, assistantContent))

/-- `handleUserMessage` called on a fresh session (no pending rows). -/
def handleUserMessage (gen : Nat → String)
    (llm : List ChatEntry → Except String String) (db : Db)
    (conversationId userContent : String) :
    Db × Except String (List Event × String) :=
  handleUserMessageFrom gen llm db [] conversationId userContent

/-- The bounded search window of `handleDecisionResponse` (`pipeline.py`
lines 220-227): the five most recent assistant messages of the
conversation, newest first. -/
def recentAssistant (msgs : List Msg) (conversationId : String) : List Msg :=
  ((msgs.filter fun m =>
      m.conversationId == conversationId && m.role == "assistant").reverse).take 5

/-- The label resolution loop of `handleDecisionResponse` (`pipeline.py`
lines 230-238): starting from the raw selected value, scan the recent
messages; in each message whose metadata carries decisions, take the first
decision with the given id (the `break`) and overwrite the label with the
label of every option whose value matches. -/
def lookupLabel (recent : List Msg) (decisionId selectedValue : String) : String :=
  recent.foldl
    (fun selectedLabel msg =>
      match msg.metadata with
      | some (.decisions ds) =>
        match ds.find? (fun d => d.id == decisionId) with
        | some d =>
          d.options.foldl
            (fun acc opt => if opt.value == selectedValue then opt.label else acc)
            selectedLabel
        | none => selectedLabel
      | _ => selectedLabel)
    selectedValue

/-- The hidden message `handleDecisionResponse` injects (`pipeline.py`
lines 240-249). -/
def hiddenMsgOf (conversationId decisionId selectedValue label : String) : Msg :=
  ⟨conversationId, "hidden", "I choose: " ++ label,
    some (.decisionResponse decisionId selectedValue)⟩

/-- `handleDecisionResponse` (`pipeline.py` lines 208-254): resolve the label
in the bounded window, flush the hidden message on the session, and re-enter
the per-turn algorithm with the synthesized content. -/
def handleDecisionResponse (gen : Nat → String)
    (llm : List ChatEntry → Except String String) (db : Db)
    (conversationId decisionId selectedValue : String) :
    Db × Except String (List Event × String) :=
  let selectedLabel :=
    lookupLabel (recentAssistant db.msgs conversationId) decisionId selectedValue
  let hiddenMsg := hiddenMsgOf conversationId decisionId selectedValue selectedLabel
  handleUserMessageFrom gen llm db [hiddenMsg] conversationId
    ("I choose: " ++ selectedLabel)

/-- The phase of a conversation in a store (`none` when absent). -/
def convPhase (convs : List Conv) (conversationId : String) : Option String :=
  (convs.find? fun c => c.id == conversationId).map Conv.phase

/-- The decision list carried by a message metadata value (empty when the
metadata is absent or carries no decisions). -/
def metaDecisions : Option Metadata → List Decision
  | some (.decisions ds) => ds
  | _ => []

/-- Position of a phase in the forward order
negotiation < architecture < execution < evaluation < deployment. -/
def phaseRank : String → Nat
  | "architecture" => 1
  | "execution" => 2
  | "evaluation" => 3
  | "deployment" => 4
  | _ => 0

/-! ## Sandbox Execution Engine

`services/sandbox/docker_manager.py`. -/

/-- The shared state of `_streamLogs` (`docker_manager.py` lines 213-269):
the append-only `allLines` buffer written by the log-reading worker thread,
the flush loop's `lastSent` index, the batch a flush has sliced but whose
index update has not yet executed, and the emitted `log_chunk` payloads in
emission order. -/
structure FlushState where
  buffer : List String
  lastSent : Nat
  pending : Option String
  chunks : List String
deriving DecidableEq

/-- The primitive interleaved steps of `_streamLogs`: the worker thread
appends a decoded line (line 231); the flush loop checks
`len(allLines) > lastSent` and evaluates `"".join(allLines[lastSent:])`
(lines 240-241); the flush loop then executes `lastSent = len(allLines)` —
reading the length again — and emits the batch (lines 242-252).  The two
halves of the flush body are separate steps because the worker thread can
append between the slice and the second length read. -/
inductive FlushEv where
  | append (line : String)
  | flushSlice
  | flushWrite
deriving DecidableEq

/-- Effect of one primitive step on the shared state.  A `flushSlice` with a
batch still pending and a `flushWrite` without one are no-ops: the flush
body is sequential, so those interleavings cannot occur. -/
def flushStep : FlushState → FlushEv → FlushState
  | st, .append line => { st with buffer := st.buffer ++ [line] }
  | st, .flushSlice =>
    match st.pending with
    | some _ => st
    | none =>
      if st.lastSent < st.buffer.length then
        { st with pending := some (String.join (st.buffer.drop st.lastSent)) }
      else st
  | st, .flushWrite =>
    match st.pending with
    | some batch =>
      { st with chunks := st.chunks ++ [batch], lastSent := st.buffer.length,
                pending := none }
    | none => st

/-- Run `_streamLogs` under an interleaving of primitive steps.  The trace
ends when the worker has terminated; the final flush of lines 256-267 then
runs without concurrent appends, and the call returns
`"".join(allLines)` (line 269). -/
def streamLogsRun (trace : List FlushEv) : List String × String :=
  let st := trace.foldl flushStep ⟨[], 0, none, []⟩
  let chunks :=
    if st.lastSent < st.buffer.length then
      st.chunks ++ [String.join (st.buffer.drop st.lastSent)]
    else st.chunks
  (chunks, String.join st.buffer)

/-- The environment of one `runSandbox` call (`docker_manager.py`
lines 57-211): whether `containers.run` raises, the decoded lines the log
stream yields, the wall-clock time until the container exits (the log
stream with `follow=True` ends exactly then), the extra time
`container.wait` takes after the stream has ended, the `StatusCode` of the
wait result, and `settings.sandbox_timeout`. -/
structure SandboxEnv where
  startError : Option String
  streamLines : List String
  runDuration : Nat
  waitDuration : Nat
  statusCode : Option Int
  sandboxTimeout : Nat
deriving DecidableEq

/-- The dict `runSandbox` returns (line 207-211). -/
structure SandboxResult where
  exitCode : Int
  logs : String
  containerId : String
deriving DecidableEq

/-- The observable outcome of one `runSandbox` call: the returned dict, the
runtime's container listing after the call, whether `container.kill()` ran,
and the wall-clock duration of the call. -/
structure SandboxRun where
  result : SandboxResult
  containers : List String
  killed : Bool
  elapsed : Nat
deriving DecidableEq

/-- `runSandbox` (`docker_manager.py` lines 57-211) with the flush
interleaving abstracted away (`_streamLogs` returns the full concatenated
text, line 269).  Control flow of the source: `_streamLogs` is awaited with
no timeout (lines 144-146), and only then is `container.wait` awaited under
`asyncio.wait_for(..., timeout=settings.sandbox_timeout)` (lines 149-152);
the log stream ends when the container exits, so the streaming phase lasts
the container's whole run time and `asyncio.TimeoutError` fires exactly
when the residual wait exceeds the timeout.  On timeout: kill, exit code
`-1`, and `allLogs` is assigned the literal timeout marker (lines 155-165).
On any other exception: exit code `-1`, logs `"[ERROR] " + str(e)`
(lines 167-170).  The `finally` block always force-removes the container
from the runtime listing, swallowing its own failures (lines 172-179). -/
def runSandbox (env : SandboxEnv) (name : String) (containers : List String) :
    SandboxRun :=
  match env.startError with
  | some e =>
    { result := { exitCode := -1, logs := "[ERROR] " ++ e, containerId := name }
      containers := containers.filter fun c => c != name
      killed := false
      elapsed := 0 }
  | none =>
    let listed := containers ++ [name]
    let allLogs := String.join env.streamLines
    if env.sandboxTimeout < env.waitDuration then
      { result := { exitCode := -1,
                    logs := "[TIMEOUT] Container exceeded time limit.",
                    containerId := name }
        containers := listed.filter fun c => c != name
        killed := true
        elapsed := env.runDuration + env.sandboxTimeout }
    else
      { result := { exitCode := env.statusCode.getD (-1), logs := allLogs,
                    containerId := name }
        containers := listed.filter fun c => c != name
        killed := false
        elapsed := env.runDuration + env.waitDuration }

/-! ## Template family for the decision-block claims -/

/-- A text fragment usable as a question, label or description of a
well-formed decision block: nonempty, holding no `*` and no newline, and
not starting with whitespace. -/
def plainChunk (xs : List Char) : Bool :=
  !xs.isEmpty && xs.all (fun c => c != '*' && c != '\n') && !isPyWs (xs.headD 'x')

/-- A well-formed decision block as described by the spec (a heading, a bold
question, two bold-labeled options each with a following description),
written with the sub-texts split at the boundaries of the pattern. -/
def decisionBlock (q la da lb db : List Char) : List Char :=
  "###".data ++ " ".data ++ "🎯".data ++ " ".data ++ "Decision Required:".data ++
  "\n".data ++ "**".data ++ q ++ "**".data ++ "\n\n".data ++
  "**Option A:".data ++ " ".data ++ la ++ "**".data ++ "\n".data ++
  da ++ "\n\n".data ++
  "**Option B:".data ++ " ".data ++ lb ++ "**".data ++ "\n".data ++ db

/-- A decision block occurs in `s` at position `i` when the fixed structural
pattern of the extractor matches the suffix of `s` starting at `i`
(spec 4.1: decision extraction "matches a fixed structural pattern"). -/
def blockAt (s : List Char) (i : Nat) : Prop :=
  (matchElems decisionPattern (s.drop i) []).isSome = true

instance (s : List Char) (i : Nat) : Decidable (blockAt s i) := by
  unfold blockAt; infer_instance

/-- The per-message contribution of `buildMessageHistory`: the entry a
stored message adds to the LLM history — `hidden` remapped to `user`, and
only the roles `user`, `assistant`, `system` kept. -/
def historyEntry (m : Msg) : Option ChatEntry :=
  let role := if m.role == "hidden" then "user" else m.role
  if role == "user" || role == "assistant" || role == "system" then
    some ⟨role, m.content⟩
  else none

/-- Number of history entries with role `user` and the given content. -/
def countUserEntries (history : List ChatEntry) (content : String) : Nat :=
  history.countP fun e => e.role == "user" && e.content == content

/-- An interleaving in which no worker append separates a flush's slice
from its index update: each `some line` is a worker append and each `none`
a whole flush body executed atomically. -/
def atomicTrace : List (Option String) → List FlushEv
  | [] => []
  | some line :: t => .append line :: atomicTrace t
  | none :: t => .flushSlice :: .flushWrite :: atomicTrace t

/-- A sample assistant answer holding exactly one well-formed decision
block, used as a concrete input. -/
def sampleDecisionText : String :=
  "### 🎯 Decision Required:\n**Which db?**\n\n**Option A: SQL**\nrelational\n\n**Option B: NoSQL**\ndocuments"

end Cofounder

/-! # Theorems -/

namespace Cofounder

/-- The history fold appends exactly the entries `historyEntry` picks. -/
theorem foldl_historyEntry (l : List Msg) :
    ∀ acc : List ChatEntry,
      l.foldl
        (fun history m =>
          let role := if m.role == "hidden" then "user" else m.role
          if role == "user" || role == "assistant" || role == "system" then
            history ++ [⟨role, m.content⟩]
          else history)
        acc = acc ++ l.filterMap historyEntry := by
  induction l with
  | nil => intro acc; simp
  | cons m l ih =>
    intro acc
    rw [List.foldl_cons, ih, List.filterMap_cons]
    simp only [historyEntry]
    split <;> simp
    split <;> simp

/-- Closed form of `buildMessageHistory`: the system preamble followed by
the picked entries. -/
theorem buildMessageHistory_eq (msgs : List Msg) (conversationId : String) :
    buildMessageHistory msgs conversationId =
      ⟨"system", COFOUNDER_SYSTEM_PROMPT⟩ ::
        (msgs.filter fun m => m.conversationId == conversationId).filterMap
          historyEntry := by
  unfold buildMessageHistory
  rw [foldl_historyEntry]
  simp

/-- C7: `buildMessageHistory` returns one leading role-specific system
message, followed by every stored message of the conversation whose role is
in {user, assistant, system} — hidden messages included, remapped to role
user — in strict creation order; and just the system message when no prior
messages of the conversation exist. -/
theorem buildMessageHistory_shape (msgs : List Msg) (conversationId : String) :
    buildMessageHistory msgs conversationId =
      ⟨"system", COFOUNDER_SYSTEM_PROMPT⟩ ::
        (msgs.filter fun m => m.conversationId == conversationId).filterMap
          historyEntry ∧
    ((msgs.filter fun m => m.conversationId == conversationId) = [] →
      buildMessageHistory msgs conversationId =
        [⟨"system", COFOUNDER_SYSTEM_PROMPT⟩]) := by
  constructor
  · exact buildMessageHistory_eq msgs conversationId
  · intro h
    rw [buildMessageHistory_eq, h]
    rfl

/-- C6 counterexample: `parseDecisionCards` embeds a fresh `uuid.uuid4()`
into each decision, so two invocations on the same literal string (whose
uuid streams differ) produce different outputs. -/
theorem parseDecisionCards_not_deterministic :
    parseDecisionCards (fun _ => "id-a") sampleDecisionText ≠
      parseDecisionCards (fun _ => "id-b") sampleDecisionText := by
  decide

/-- C6 amended: apart from the freshly generated ids, decision extraction
is a pure function of the input string: for every input, two invocations
agree after the id fields are erased. -/
theorem parseDecisionCards_deterministic_up_to_ids
    (g1 g2 : Nat → String) (content : String) :
    (parseDecisionCards g1 content).map Decision.core =
      (parseDecisionCards g2 content).map Decision.core := by
  unfold parseDecisionCards
  rw [List.map_map, List.map_map]
  exact List.map_congr_left fun p _ => rfl

/-- Case analysis for one turn of the pipeline entered with pending session
rows: an LLM failure propagates before any commit, leaving the committed
store untouched; a success commits the pending rows, the user message, the
assistant message and the conditional phase update in one step. -/
theorem handleUserMessageFrom_cases (gen : Nat → String)
    (llm : List ChatEntry → Except String String) (db : Db) (pending : List Msg)
    (conversationId userContent : String) :
    (∀ e, llm (buildMessageHistory
          (db.msgs ++ pending ++ [⟨conversationId, "user", userContent, none⟩])
          conversationId) = .error e →
      handleUserMessageFrom gen llm db pending conversationId userContent =
        (db, .error e)) ∧
    (∀ a, llm (buildMessageHistory
          (db.msgs ++ pending ++ [⟨conversationId, "user", userContent, none⟩])
          conversationId) = .ok a →
      ∃ events,
        handleUserMessageFrom gen llm db pending conversationId userContent =
          (⟨(if detectFinalize a then updatePhase db.convs conversationId
             else db.convs),
            db.msgs ++ pending ++ [⟨conversationId, "user", userContent, none⟩] ++
              [⟨conversationId, "assistant", a,
                (if (parseDecisionCards gen a).isEmpty then none
                 else some (parseDecisionCards gen a)).map Metadata.decisions⟩]⟩,
           .ok (events, a))) := by
  constructor
  · intro e he
    unfold handleUserMessageFrom
    dsimp only
    rw [he]
  · intro a ha
    unfold handleUserMessageFrom
    dsimp only
    rw [ha]
    exact ⟨_, rfl⟩

/-- C3: the per-turn algorithm is atomic with respect to persistence: when
the LLM invocation raises, the exception propagates before the single
commit, so the committed store — user message, assistant message and phase
alike — is exactly the one from before the turn; when the invocation
succeeds, the user message, the assistant message and the conditional phase
update all appear in the one store committed at the end of the turn. -/
theorem handleUserMessage_atomic (gen : Nat → String)
    (llm : List ChatEntry → Except String String) (db : Db)
    (conversationId userContent : String) :
    (∀ e, llm (buildMessageHistory
          (db.msgs ++ [⟨conversationId, "user", userContent, none⟩]) conversationId) =
        .error e →
      handleUserMessage gen llm db conversationId userContent = (db, .error e)) ∧
    (∀ a, llm (buildMessageHistory
          (db.msgs ++ [⟨conversationId, "user", userContent, none⟩]) conversationId) =
        .ok a →
      ∃ events,
        handleUserMessage gen llm db conversationId userContent =
          (⟨(if detectFinalize a then updatePhase db.convs conversationId
             else db.convs),
            db.msgs ++ [⟨conversationId, "user", userContent, none⟩] ++
              [⟨conversationId, "assistant", a,
                (if (parseDecisionCards gen a).isEmpty then none
                 else some (parseDecisionCards gen a)).map Metadata.decisions⟩]⟩,
           .ok (events, a))) := by
  constructor
  · intro e he
    unfold handleUserMessage handleUserMessageFrom
    simp only [List.append_nil]
    rw [he]
  · intro a ha
    unfold handleUserMessage handleUserMessageFrom
    simp only [List.append_nil]
    rw [ha]
    exact ⟨_, rfl⟩

/-- C3 witness: a failing LLM call leaves a concrete store untouched, and a
succeeding one commits both messages together. -/
theorem handleUserMessage_atomic_witness :
    handleUserMessage (fun _ => "u") (fun _ => Except.error "boom")
        ⟨[⟨"c", "negotiation"⟩], []⟩ "c" "hi" =
      (⟨[⟨"c", "negotiation"⟩], []⟩, Except.error "boom") ∧
    (handleUserMessage (fun _ => "u") (fun _ => Except.ok "hello")
        ⟨[⟨"c", "negotiation"⟩], []⟩ "c" "hi").1 =
      ⟨[⟨"c", "negotiation"⟩],
        [⟨"c", "user", "hi", none⟩, ⟨"c", "assistant", "hello", none⟩]⟩ := by
  constructor
  · exact (handleUserMessage_atomic (fun _ => "u") (fun _ => Except.error "boom")
      ⟨[⟨"c", "negotiation"⟩], []⟩ "c" "hi").1 "boom" rfl
  · obtain ⟨events, h⟩ := (handleUserMessage_atomic (fun _ => "u")
      (fun _ => Except.ok "hello") ⟨[⟨"c", "negotiation"⟩], []⟩ "c" "hi").2 "hello" rfl
    have h1 := congrArg Prod.fst h
    dsimp only at h1
    rw [h1]
    decide

/-- Updating the phase of a listed conversation to `architecture` is
visible through `convPhase`. -/
theorem convPhase_updatePhase (convs : List Conv) (cid p : String)
    (h : convPhase convs cid = some p) :
    convPhase (updatePhase convs cid) cid = some "architecture" := by
  unfold convPhase updatePhase at *
  rw [List.find?_map]
  have hpred : ((fun c : Conv => c.id == cid) ∘ fun c : Conv =>
      if c.id == cid then { c with phase := "architecture" } else c) =
      fun c : Conv => c.id == cid := by
    funext c
    by_cases hc : (c.id == cid) = true
    · show ((if c.id == cid then { c with phase := "architecture" } else c).id == cid) =
        (c.id == cid)
      rw [if_pos hc]
    · show ((if c.id == cid then { c with phase := "architecture" } else c).id == cid) =
        (c.id == cid)
      rw [if_neg hc]
  rw [hpred]
  obtain ⟨c0, hc0, hphase⟩ := Option.map_eq_some'.mp h
  have hc0true := List.find?_some hc0
  rw [hc0]
  show some (if c0.id == cid then { c0 with phase := "architecture" } else c0).phase =
    some "architecture"
  rw [if_pos hc0true]

/-- C4: a user turn on a conversation in phase `negotiation` whose assistant
response matches a finalize trigger leaves the conversation in phase
`architecture`, and the turn emits exactly one `phase_change` notification,
with payload from `negotiation` to `architecture`. -/
theorem finalize_turn (gen : Nat → String)
    (llm : List ChatEntry → Except String String) (db : Db)
    (conversationId userContent assistantContent : String)
    (hphase : convPhase db.convs conversationId = some "negotiation")
    (hllm : llm (buildMessageHistory
        (db.msgs ++ [⟨conversationId, "user", userContent, none⟩]) conversationId) =
      .ok assistantContent)
    (hfin : detectFinalize assistantContent = true) :
    ∃ ndb events s,
      handleUserMessage gen llm db conversationId userContent =
        (ndb, .ok (events, s)) ∧
      convPhase ndb.convs conversationId = some "architecture" ∧
      events.filter isPhaseChangeEvent =
        [.phaseChange "negotiation" "architecture"] := by
  obtain ⟨events, h⟩ :=
    (handleUserMessageFrom_cases gen llm db [] conversationId userContent).2
      assistantContent (by simpa using hllm)
  rw [show handleUserMessageFrom gen llm db [] conversationId userContent =
      handleUserMessage gen llm db conversationId userContent from rfl] at h
  simp only [List.append_nil] at h
  rw [hfin] at h
  simp only [if_true] at h
  refine ⟨_, events, assistantContent, h, convPhase_updatePhase _ _ _ hphase, ?_⟩
  have hev : events =
      (Event.chatMessage "assistant" assistantContent
          (if (parseDecisionCards gen assistantContent).isEmpty then none
           else some (parseDecisionCards gen assistantContent)) ::
        (parseDecisionCards gen assistantContent).map Event.decisionRequired) ++
        [Event.phaseChange "negotiation" "architecture"] := by
    have h2 := h
    unfold handleUserMessage handleUserMessageFrom at h2
    simp only [List.append_nil] at h2
    rw [hllm] at h2
    simp only [hfin, if_true] at h2
    have := congrArg (fun x => x.2) h2
    simp only at this
    cases this
    rfl
  rw [hev]
  simp [List.filter_append, List.filter_map, isPhaseChangeEvent,
    List.filter_eq_nil_iff]

/-- C4 witness: a concrete finalize turn from `negotiation`. -/
theorem finalize_turn_witness :
    ∃ ndb events s,
      handleUserMessage (fun _ => "u") (fun _ => Except.ok "finalize_architecture")
          ⟨[⟨"c", "negotiation"⟩], []⟩ "c" "go" = (ndb, .ok (events, s)) ∧
      convPhase ndb.convs "c" = some "architecture" ∧
      events.filter isPhaseChangeEvent =
        [.phaseChange "negotiation" "architecture"] :=
  finalize_turn (fun _ => "u") (fun _ => Except.ok "finalize_architecture")
    ⟨[⟨"c", "negotiation"⟩], []⟩ "c" "go" "finalize_architecture"
    (by decide) rfl (by decide)

/-- C5 counterexample: a finalize trigger on a conversation already in phase
`execution` resets its phase to `architecture`, which is strictly backwards
in the phase order — the turn does move a conversation's phase backwards. -/
theorem phase_moves_backwards :
    convPhase [⟨"c", "execution"⟩] "c" = some "execution" ∧
    (handleUserMessage (fun _ => "u") (fun _ => Except.ok "finalize_architecture")
        ⟨[⟨"c", "execution"⟩], []⟩ "c" "go").1.convs = [⟨"c", "architecture"⟩] ∧
    phaseRank "architecture" < phaseRank "execution" := by
  refine ⟨rfl, ?_, by decide⟩
  decide

/-- C5 amended: the phase never moves backwards on a turn provided the
conversation is still in `negotiation` or `architecture`; the only phase
write the turn performs is to `architecture`, so a finalize trigger on a
conversation already past `architecture` resets its phase backwards to
`architecture`. -/
theorem phase_monotone_from_early (gen : Nat → String)
    (llm : List ChatEntry → Except String String) (db : Db)
    (conversationId userContent p : String)
    (hp : convPhase db.convs conversationId = some p)
    (hrank : phaseRank p ≤ 1) :
    ∃ p2,
      convPhase (handleUserMessage gen llm db conversationId userContent).1.convs
          conversationId = some p2 ∧
      phaseRank p ≤ phaseRank p2 := by
  rcases hres : llm (buildMessageHistory
      (db.msgs ++ [⟨conversationId, "user", userContent, none⟩]) conversationId)
    with e | a
  · have h := (handleUserMessageFrom_cases gen llm db [] conversationId userContent).1
      e (by simpa using hres)
    rw [show handleUserMessage gen llm db conversationId userContent =
        handleUserMessageFrom gen llm db [] conversationId userContent from rfl, h]
    exact ⟨p, hp, le_refl _⟩
  · obtain ⟨events, h⟩ :=
      (handleUserMessageFrom_cases gen llm db [] conversationId userContent).2
        a (by simpa using hres)
    rw [show handleUserMessage gen llm db conversationId userContent =
        handleUserMessageFrom gen llm db [] conversationId userContent from rfl, h]
    by_cases hfin : detectFinalize a = true
    · simp only [hfin, if_true]
      refine ⟨"architecture", convPhase_updatePhase _ _ _ hp, ?_⟩
      calc phaseRank p ≤ 1 := hrank
        _ = phaseRank "architecture" := rfl
    · simp only [hfin]
      simp only [if_false, Bool.false_eq_true, ite_false]
      exact ⟨p, hp, le_refl _⟩

/-- C5 amended witness: a turn from `negotiation` with a finalize trigger. -/
theorem phase_monotone_from_early_witness :
    ∃ p2,
      convPhase (handleUserMessage (fun _ => "u")
          (fun _ => Except.ok "finalize_architecture")
          ⟨[⟨"c", "negotiation"⟩], []⟩ "c" "go").1.convs "c" = some p2 ∧
      phaseRank "negotiation" ≤ phaseRank p2 :=
  phase_monotone_from_early (fun _ => "u") (fun _ => Except.ok "finalize_architecture")
    ⟨[⟨"c", "negotiation"⟩], []⟩ "c" "go" "negotiation" (by decide) (by decide)

/-- When no decision in the window carries the requested id, the label
resolution loop returns its starting value unchanged. -/
theorem lookupLabel_not_found (did v : String) :
    ∀ recent : List Msg,
      (∀ m ∈ recent, ∀ d ∈ metaDecisions m.metadata, d.id ≠ did) →
      lookupLabel recent did v = v := by
  have aux : ∀ (recent : List Msg) (acc : String),
      (∀ m ∈ recent, ∀ d ∈ metaDecisions m.metadata, d.id ≠ did) →
      recent.foldl
        (fun selectedLabel msg =>
          match msg.metadata with
          | some (.decisions ds) =>
            match ds.find? (fun d => d.id == did) with
            | some d =>
              d.options.foldl
                (fun acc opt => if opt.value == v then opt.label else acc)
                selectedLabel
            | none => selectedLabel
          | _ => selectedLabel)
        acc = acc := by
    intro recent
    induction recent with
    | nil => intro acc _; rfl
    | cons m l ih =>
      intro acc h
      rw [List.foldl_cons]
      have hm := h m (List.mem_cons_self m l)
      have hrest : ∀ m' ∈ l, ∀ d ∈ metaDecisions m'.metadata, d.id ≠ did :=
        fun m' hm' => h m' (List.mem_cons_of_mem m hm')
      have hstep :
          (match m.metadata with
           | some (.decisions ds) =>
             match ds.find? (fun d => d.id == did) with
             | some d =>
               d.options.foldl
                 (fun acc opt => if opt.value == v then opt.label else acc) acc
             | none => acc
           | _ => acc) = acc := by
        cases hmeta : m.metadata with
        | none => rfl
        | some md =>
          cases md with
          | decisionResponse a b => rfl
          | decisions ds =>
            have hfind : ds.find? (fun d => d.id == did) = none := by
              rw [List.find?_eq_none]
              intro d hd
              have hne := hm d (by rw [hmeta]; exact hd)
              simp [hne]
            dsimp only
            rw [hfind]
      rw [hstep]
      exact ih acc hrest
  intro recent h
  exact aux recent v h

/-- C9: resolving a decision id that appears nowhere in the bounded window
of recent assistant messages never fails: the raw selected value is used as
the label, the hidden message "I choose: value" is synthesized, and the
per-turn algorithm is re-entered with that content. -/
theorem unknown_decision_degrades (gen : Nat → String)
    (llm : List ChatEntry → Except String String) (db : Db)
    (conversationId decisionId selectedValue : String)
    (h : ∀ m ∈ recentAssistant db.msgs conversationId,
          ∀ d ∈ metaDecisions m.metadata, d.id ≠ decisionId) :
    lookupLabel (recentAssistant db.msgs conversationId) decisionId selectedValue =
      selectedValue ∧
    handleDecisionResponse gen llm db conversationId decisionId selectedValue =
      handleUserMessageFrom gen llm db
        [hiddenMsgOf conversationId decisionId selectedValue selectedValue]
        conversationId ("I choose: " ++ selectedValue) := by
  have hl := lookupLabel_not_found decisionId selectedValue
    (recentAssistant db.msgs conversationId) h
  constructor
  · exact hl
  · unfold handleDecisionResponse
    rw [hl]

/-- C9 witness: a window holding one decision with a different id. -/
theorem unknown_decision_degrades_witness :
    lookupLabel (recentAssistant
        [⟨"c", "assistant", "m1",
          some (.decisions [⟨"other", "Q",
            [⟨"L", "option_a", "D"⟩, ⟨"M", "option_b", "E"⟩]⟩])⟩] "c")
      "missing" "option_b" = "option_b" ∧
    handleDecisionResponse (fun _ => "u") (fun _ => Except.ok "fine")
        ⟨[], [⟨"c", "assistant", "m1",
          some (.decisions [⟨"other", "Q",
            [⟨"L", "option_a", "D"⟩, ⟨"M", "option_b", "E"⟩]⟩])⟩]⟩
        "c" "missing" "option_b" =
      handleUserMessageFrom (fun _ => "u") (fun _ => Except.ok "fine")
        ⟨[], [⟨"c", "assistant", "m1",
          some (.decisions [⟨"other", "Q",
            [⟨"L", "option_a", "D"⟩, ⟨"M", "option_b", "E"⟩]⟩])⟩]⟩
        [hiddenMsgOf "c" "missing" "option_b" "option_b"]
        "c" "I choose: option_b" :=
  unknown_decision_degrades (fun _ => "u") (fun _ => Except.ok "fine")
    ⟨[], [⟨"c", "assistant", "m1",
      some (.decisions [⟨"other", "Q",
        [⟨"L", "option_a", "D"⟩, ⟨"M", "option_b", "E"⟩]⟩])⟩]⟩
    "c" "missing" "option_b" (by decide)

/-- C10: a successful `handleDecisionResponse` persists the chosen content
"I choose: label" twice — once as the hidden message it injects and once
more as the user message saved by the re-entered `handleUserMessage` — and
both reach every subsequently built LLM history with role `user`, so the
history holds exactly two more such user entries than before the call. -/
theorem decision_persisted_twice (gen : Nat → String)
    (llm : List ChatEntry → Except String String) (db : Db)
    (conversationId decisionId selectedValue : String)
    (ndb : Db) (events : List Event) (a : String)
    (h : handleDecisionResponse gen llm db conversationId decisionId selectedValue =
      (ndb, .ok (events, a))) :
    countUserEntries (buildMessageHistory ndb.msgs conversationId)
        ("I choose: " ++ lookupLabel (recentAssistant db.msgs conversationId)
            decisionId selectedValue) =
      countUserEntries (buildMessageHistory db.msgs conversationId)
        ("I choose: " ++ lookupLabel (recentAssistant db.msgs conversationId)
            decisionId selectedValue) + 2 := by
  rw [show handleDecisionResponse gen llm db conversationId decisionId selectedValue =
      handleUserMessageFrom gen llm db
        [hiddenMsgOf conversationId decisionId selectedValue
          (lookupLabel (recentAssistant db.msgs conversationId) decisionId
            selectedValue)]
        conversationId
        ("I choose: " ++ lookupLabel (recentAssistant db.msgs conversationId)
          decisionId selectedValue) from rfl] at h
  rcases hllm : llm (buildMessageHistory
      (db.msgs ++
        [hiddenMsgOf conversationId decisionId selectedValue
          (lookupLabel (recentAssistant db.msgs conversationId) decisionId
            selectedValue)] ++
        [⟨conversationId, "user",
          "I choose: " ++ lookupLabel (recentAssistant db.msgs conversationId)
            decisionId selectedValue, none⟩])
      conversationId) with e | a2
  · have hfail := (handleUserMessageFrom_cases gen llm db
      [hiddenMsgOf conversationId decisionId selectedValue
        (lookupLabel (recentAssistant db.msgs conversationId) decisionId
          selectedValue)]
      conversationId
      ("I choose: " ++ lookupLabel (recentAssistant db.msgs conversationId)
        decisionId selectedValue)).1 e hllm
    rw [hfail, Prod.mk.injEq] at h
    exact absurd h.2 (by simp)
  · obtain ⟨ev2, heq⟩ := (handleUserMessageFrom_cases gen llm db
      [hiddenMsgOf conversationId decisionId selectedValue
        (lookupLabel (recentAssistant db.msgs conversationId) decisionId
          selectedValue)]
      conversationId
      ("I choose: " ++ lookupLabel (recentAssistant db.msgs conversationId)
        decisionId selectedValue)).2 a2 hllm
    rw [heq, Prod.mk.injEq] at h
    rw [← h.1]
    rw [buildMessageHistory_eq, buildMessageHistory_eq]
    unfold countUserEntries historyEntry hiddenMsgOf
    simp [List.filter_append, List.filterMap_append, List.countP_append,
      List.countP_cons]

/-- C10 witness: a concrete successful decision response persists the
chosen content twice in the rebuilt history. -/
theorem decision_persisted_twice_witness :
    countUserEntries
        (buildMessageHistory
          [⟨"c", "hidden", "I choose: option_a",
            some (.decisionResponse "d1" "option_a")⟩,
           ⟨"c", "user", "I choose: option_a", none⟩,
           ⟨"c", "assistant", "ok", none⟩] "c")
        ("I choose: " ++ lookupLabel (recentAssistant [] "c") "d1" "option_a") =
      countUserEntries (buildMessageHistory [] "c")
        ("I choose: " ++ lookupLabel (recentAssistant [] "c") "d1" "option_a") + 2 :=
  decision_persisted_twice (fun _ => "u") (fun _ => Except.ok "ok") ⟨[], []⟩
    "c" "d1" "option_a"
    ⟨[], [⟨"c", "hidden", "I choose: option_a",
        some (.decisionResponse "d1" "option_a")⟩,
      ⟨"c", "user", "I choose: option_a", none⟩,
      ⟨"c", "assistant", "ok", none⟩]⟩
    [Event.chatMessage "assistant" "ok" none] "ok" rfl

/-- C1 (code evaluation at the failing interleaving): in a run where the
worker appends "a", a flush slices the buffer, the worker appends "b", and
the flush then executes `lastSent = len(allLines)`, the final result text
is "ab" but the only emitted chunk is "a": the segment "b" is skipped by
the advanced index and never reaches any chunk, so the concatenation of the
emitted `log_chunk` payloads differs from the returned log text. -/
theorem streamLogs_flush_race_loses_chunk :
    (streamLogsRun [.append "a", .flushSlice, .append "b", .flushWrite]).2 = "ab" ∧
    (streamLogsRun [.append "a", .flushSlice, .append "b", .flushWrite]).1 = ["a"] ∧
    String.join (streamLogsRun
      [.append "a", .flushSlice, .append "b", .flushWrite]).1 ≠ "ab" := by
  decide

/-- C2 (code evaluation at the failing input): a container whose command
sleeps for 10 seconds against a configured 5-second timeout is streamed to
completion — the timeout guards only the post-stream `container.wait` — so
the call returns the container's own exit code 0, the logs carry no timeout
marker, the container is never killed, and the call lasts the full 10
seconds. -/
theorem runSandbox_sleep_past_timeout_not_killed :
    (5 : Nat) <
      ({ startError := none, streamLines := [], runDuration := 10,
         waitDuration := 0, statusCode := some 0,
         sandboxTimeout := 5 } : SandboxEnv).runDuration ∧
    runSandbox
      { startError := none, streamLines := [], runDuration := 10,
        waitDuration := 0, statusCode := some 0, sandboxTimeout := 5 }
      "cofounder-sandbox-1" [] =
      { result := { exitCode := 0, logs := "", containerId := "cofounder-sandbox-1" },
        containers := [], killed := false, elapsed := 10 } ∧
    ((0 : Int) = -1 → False) ∧
    containsSub "[TIMEOUT]".data "".data = false := by
  refine ⟨by decide, by decide, by decide, by decide⟩

/-- Joining a concatenation of string lists concatenates the joins. -/
theorem stringJoin_append (a b : List String) :
    String.join (a ++ b) = String.join a ++ String.join b := by
  apply String.ext
  simp [String.join_eq]

/-- Joining a one-element string list gives its element. -/
theorem stringJoin_singleton (s : String) : String.join [s] = s := by
  apply String.ext
  simp [String.join_eq]

/-- The loop invariant of the flush loop under flush-atomic interleavings:
no batch pending, the flush index within the buffer, and the emitted chunks
together with the unflushed tail making up the whole buffer. -/
theorem flushStep_atomic_invariant (t : List (Option String)) :
    ∀ st : FlushState, st.pending = none → st.lastSent ≤ st.buffer.length →
      String.join st.chunks ++ String.join (st.buffer.drop st.lastSent) =
        String.join st.buffer →
      ((atomicTrace t).foldl flushStep st).pending = none ∧
      ((atomicTrace t).foldl flushStep st).lastSent ≤
        ((atomicTrace t).foldl flushStep st).buffer.length ∧
      String.join ((atomicTrace t).foldl flushStep st).chunks ++
        String.join (((atomicTrace t).foldl flushStep st).buffer.drop
          ((atomicTrace t).foldl flushStep st).lastSent) =
        String.join ((atomicTrace t).foldl flushStep st).buffer := by
  induction t with
  | nil => intro st h1 h2 h3; exact ⟨h1, h2, h3⟩
  | cons ev t ih =>
    intro st h1 h2 h3
    cases ev with
    | some line =>
      simp only [atomicTrace, List.foldl_cons]
      apply ih
      · simpa [flushStep] using h1
      · simp only [flushStep, List.length_append]
        omega
      · simp only [flushStep]
        rw [List.drop_append_of_le_length h2, stringJoin_append,
          stringJoin_append, ← String.append_assoc, h3]
    | none =>
      simp only [atomicTrace, List.foldl_cons]
      by_cases hlt : st.lastSent < st.buffer.length
      · have hslice : flushStep st .flushSlice =
            { st with pending := some (String.join (st.buffer.drop st.lastSent)) } := by
          simp [flushStep, h1, hlt]
        have hwrite : flushStep (flushStep st .flushSlice) .flushWrite =
            { st with
                chunks := st.chunks ++ [String.join (st.buffer.drop st.lastSent)],
                lastSent := st.buffer.length, pending := none } := by
          rw [hslice]
          simp [flushStep]
        rw [hwrite]
        apply ih
        · rfl
        · simp
        · rw [List.drop_length, stringJoin_append, stringJoin_singleton,
            show String.join ([] : List String) = "" from rfl,
            String.append_empty]
          exact h3
      · have hslice : flushStep st .flushSlice = st := by
          simp [flushStep, h1, hlt]
        have hwrite : flushStep st .flushWrite = st := by
          simp [flushStep, h1]
        rw [hslice, hwrite]
        exact ih st h1 h2 h3

/-- Supporting result for the spec's no-loss requirement: under every
interleaving in which no worker append falls between a flush's buffer
slice and its index update, the concatenation of all emitted `log_chunk`
payloads, in emission order, equals exactly the full log text the call
returns — the loss exhibited by `streamLogs_flush_race_loses_chunk` needs
the append to land inside the flush body. -/
theorem streamLogs_no_loss_without_race (t : List (Option String)) :
    String.join (streamLogsRun (atomicTrace t)).1 =
      (streamLogsRun (atomicTrace t)).2 := by
  obtain ⟨hp, hle, heq⟩ := flushStep_atomic_invariant t ⟨[], 0, none, []⟩
    rfl (by simp) (by simp [String.join])
  unfold streamLogsRun
  by_cases hlt : ((atomicTrace t).foldl flushStep ⟨[], 0, none, []⟩).lastSent <
      ((atomicTrace t).foldl flushStep ⟨[], 0, none, []⟩).buffer.length
  · simp only [hlt, if_true]
    rw [stringJoin_append, stringJoin_singleton]
    exact heq
  · simp only [hlt, if_false]
    have hdrop : ((atomicTrace t).foldl flushStep ⟨[], 0, none, []⟩).buffer.drop
        ((atomicTrace t).foldl flushStep ⟨[], 0, none, []⟩).lastSent = [] :=
      List.drop_eq_nil_of_le (by omega)
    rw [hdrop] at heq
    simpa [String.join, String.append_empty] using heq

/-! ### Backtracking search order -/

/-- A greedy quantifier returns its longest candidate when that one
succeeds. -/
theorem firstSomeDown_of_top {α} (f : Nat → Option α) (k : Nat) {v : α}
    (h : f k = some v) : firstSomeDown f k = some v := by
  cases k with
  | zero => simpa [firstSomeDown] using h
  | succ n => simp [firstSomeDown, h]

/-- A failing candidate makes a greedy quantifier fall through to the next
shorter one. -/
theorem firstSomeDown_succ_none {α} (f : Nat → Option α) (k : Nat)
    (h : f (k + 1) = none) : firstSomeDown f (k + 1) = firstSomeDown f k := by
  simp [firstSomeDown, h]

/-- A lazy quantifier returns the shortest succeeding candidate. -/
theorem firstSome_eq_some {α} (f : Nat → Option α) {v : α} :
    ∀ (n a k0 : Nat), a ≤ k0 → k0 < a + n →
      (∀ j, a ≤ j → j < k0 → f j = none) → f k0 = some v →
      firstSome f a n = some v := by
  intro n
  induction n with
  | zero => intro a k0 h1 h2 _ _; omega
  | succ n ih =>
    intro a k0 h1 h2 hnone hk
    by_cases ha : a = k0
    · subst ha
      simp [firstSome, hk]
    · have hfa : f a = none := hnone a (le_refl a) (by omega)
      simp only [firstSome, hfa, Option.none_orElse]
      exact ih (a + 1) k0 (by omega) (by omega)
        (fun j hj1 hj2 => hnone j (by omega) hj2) hk

/-! ### Single pattern elements -/

/-- A literal element consumes exactly itself. -/
theorem matchElems_lit_step (l : List Char) (rest : List RElem) (s : List Char)
    (gs : List (List Char)) :
    matchElems (.lit l :: rest) (l ++ s) gs = matchElems rest s gs := by
  simp only [matchElems]
  rw [if_pos (List.isPrefixOf_iff_prefix.mpr (List.prefix_append l s)),
    List.drop_left]

/-- A literal element fails on an input starting with a different
character. -/
theorem matchElems_lit_cons_none (h : Char) (l : List Char) (rest : List RElem)
    (c : Char) (s : List Char) (gs : List (List Char))
    (hne : (h == c) = false) :
    matchElems (.lit (h :: l) :: rest) (c :: s) gs = none := by
  simp [matchElems, List.isPrefixOf, hne]

/-- A nonempty literal element fails on an empty input. -/
theorem matchElems_lit_nil_none (h : Char) (l : List Char) (rest : List RElem)
    (gs : List (List Char)) :
    matchElems (.lit (h :: l) :: rest) [] gs = none := by
  simp [matchElems, List.isPrefixOf]

/-- Whitespace run length under a leading whitespace character. -/
theorem leadingWs_cons_ws (c : Char) (s : List Char) (h : isPyWs c = true) :
    leadingWs (c :: s) = leadingWs s + 1 := by
  simp [leadingWs, List.takeWhile_cons, h]

/-- Whitespace run length under a leading non-whitespace character. -/
theorem leadingWs_cons_not_ws (c : Char) (s : List Char) (h : isPyWs c = false) :
    leadingWs (c :: s) = 0 := by
  simp [leadingWs, List.takeWhile_cons, h]

/-- A plain chunk is nonempty. -/
theorem plainChunk_ne_nil {x : List Char} (h : plainChunk x = true) : x ≠ [] := by
  revert h
  unfold plainChunk
  cases x <;> simp

/-- No character of a plain chunk is a star. -/
theorem plainChunk_no_star {x : List Char} (h : plainChunk x = true) :
    ∀ c ∈ x, ('*' == c) = false := by
  intro c hc
  have hall : x.all (fun c => c != '*' && c != '\n') = true := by
    revert h; unfold plainChunk; cases x <;> simp +contextual [List.all_cons]
  have h12 : c ≠ '*' ∧ c ≠ '\n' := by
    simpa using List.all_eq_true.mp hall c hc
  exact beq_eq_false_iff_ne.mpr (Ne.symm h12.1)

/-- No character of a plain chunk is a newline. -/
theorem plainChunk_no_nl {x : List Char} (h : plainChunk x = true) :
    ∀ c ∈ x, ('\n' == c) = false := by
  intro c hc
  have hall : x.all (fun c => c != '*' && c != '\n') = true := by
    revert h; unfold plainChunk; cases x <;> simp +contextual [List.all_cons]
  have h12 : c ≠ '*' ∧ c ≠ '\n' := by
    simpa using List.all_eq_true.mp hall c hc
  exact beq_eq_false_iff_ne.mpr (Ne.symm h12.2)

/-- A plain chunk starts with a non-whitespace character, so no whitespace
run starts at it. -/
theorem plainChunk_leadingWs {x : List Char} (h : plainChunk x = true)
    (r : List Char) : leadingWs (x ++ r) = 0 := by
  cases x with
  | nil => exact absurd rfl (plainChunk_ne_nil h)
  | cons c t =>
    have hcws : isPyWs c = false := by
      revert h; unfold plainChunk; simp +contextual
    exact leadingWs_cons_not_ws c (t ++ r) hcws

/-- The head of an input with no leading whitespace is non-whitespace. -/
theorem leadingWs_zero_head {c : Char} {t : List Char}
    (h : leadingWs (c :: t) = 0) : isPyWs c = false := by
  by_contra hc
  have hc2 : isPyWs c = true := by revert hc; cases isPyWs c <;> simp
  rw [leadingWs_cons_ws c t hc2] at h
  omega

/-- A whitespace character differs from a non-whitespace one. -/
theorem ws_head_ne {c : Char} (h : isPyWs c = false) (w : Char)
    (hw : isPyWs w = true) : (w == c) = false := by
  rw [beq_eq_false_iff_ne]
  intro he
  rw [he] at hw
  rw [hw] at h
  exact Bool.noConfusion h

/-- A literal starting with a whitespace character fails on an input with no
leading whitespace. -/
theorem matchElems_lit_ws_head_none (w : Char) (hw : isPyWs w = true)
    (l : List Char) (rest : List RElem) (s : List Char) (gs : List (List Char))
    (hs : leadingWs s = 0) :
    matchElems (.lit (w :: l) :: rest) s gs = none := by
  cases hs2 : s with
  | nil => exact matchElems_lit_nil_none w l rest gs
  | cons c t =>
    rw [hs2] at hs
    exact matchElems_lit_cons_none w l rest c t gs
      (ws_head_ne (leadingWs_zero_head hs) w hw)

/-- The literal `\n\n` fails on a single newline followed by an input with
no leading whitespace. -/
theorem matchElems_lit_nlnl_second_none (rest : List RElem) (r : List Char)
    (gs : List (List Char)) (hr : leadingWs r = 0) :
    matchElems (.lit ['\n', '\n'] :: rest) ('\n' :: r) gs = none := by
  cases hr2 : r with
  | nil => simp [matchElems, List.isPrefixOf]
  | cons c t =>
    rw [hr2] at hr
    have hne : ('\n' == c) = false :=
      ws_head_ne (leadingWs_zero_head hr) '\n' (by decide)
    simp [matchElems, List.isPrefixOf, hne]

/-- Greedy `\s*` over a single space whose successor consumption makes the
rest of the pattern succeed. -/
theorem matchElems_wsStar_space (rest : List RElem) (r : List Char)
    (gs : List (List Char)) {v : List (List Char) × List Char}
    (hr : leadingWs r = 0) (hcont : matchElems rest r gs = some v) :
    matchElems (.wsStar :: rest) (' ' :: r) gs = some v := by
  simp only [matchElems]
  rw [leadingWs_cons_ws ' ' r (by decide), hr]
  exact firstSomeDown_of_top _ 1 (by simpa using hcont)

/-- Greedy `\s*` directly before a `\n` literal, on a newline followed by
non-whitespace: the greedy candidate consuming the newline fails at the
literal, and backtracking leaves the newline to the literal. -/
theorem matchElems_wsStar_nl (rest : List RElem) (r : List Char)
    (gs : List (List Char)) {v : List (List Char) × List Char}
    (hr : leadingWs r = 0) (hcont : matchElems rest r gs = some v) :
    matchElems (.wsStar :: .lit ['\n'] :: rest) ('\n' :: r) gs = some v := by
  simp only [matchElems]
  rw [leadingWs_cons_ws '\n' r (by decide), hr]
  rw [firstSomeDown_succ_none _ 0
    (matchElems_lit_ws_head_none '\n' (by decide) [] rest r gs hr)]
  simp only [firstSomeDown, List.drop_zero]
  exact (matchElems_lit_step ['\n'] rest r gs).trans hcont

/-- Greedy `\s*` directly before a `\n\n` literal, on two newlines followed
by non-whitespace: both greedy candidates fail at the literal and
backtracking leaves both newlines to the literal. -/
theorem matchElems_wsStar_nlnl (rest : List RElem) (r : List Char)
    (gs : List (List Char)) {v : List (List Char) × List Char}
    (hr : leadingWs r = 0) (hcont : matchElems rest r gs = some v) :
    matchElems (.wsStar :: .lit ['\n', '\n'] :: rest) ('\n' :: '\n' :: r) gs =
      some v := by
  simp only [matchElems]
  rw [leadingWs_cons_ws '\n' _ (by decide), leadingWs_cons_ws '\n' r (by decide), hr]
  rw [firstSomeDown_succ_none _ (0 + 1)
    (matchElems_lit_ws_head_none '\n' (by decide) ['\n'] rest r gs hr)]
  rw [firstSomeDown_succ_none _ 0 (matchElems_lit_nlnl_second_none rest r gs hr)]
  simp only [firstSomeDown, List.drop_zero]
  exact (matchElems_lit_step ['\n', '\n'] rest r gs).trans hcont

/-- Lazy `(.+?)` before a literal: when the chunk holds no occurrence of the
literal's first character, the shortest succeeding candidate captures
exactly the chunk. -/
theorem matchElems_dotLazy_lit (x R l : List Char) (rest : List RElem)
    (gs : List (List Char)) {v : List (List Char) × List Char}
    (hl : l ≠ []) (hne : x ≠ [])
    (hnostop : ∀ c ∈ x, (l.headD 'z' == c) = false)
    (hcont : matchElems (.lit l :: rest) R (gs ++ [x]) = some v) :
    matchElems (.dotLazy :: .lit l :: rest) (x ++ R) gs = some v := by
  simp only [matchElems]
  have hxpos : 0 < x.length := List.length_pos.mpr hne
  apply firstSome_eq_some _ (x ++ R).length 1 x.length hxpos
  · rw [List.length_append]; omega
  · intro j hj1 hj2
    show matchElems (.lit l :: rest) ((x ++ R).drop j)
      (gs ++ [(x ++ R).take j]) = none
    rw [List.drop_append_of_le_length (le_of_lt hj2),
      List.drop_eq_getElem_cons hj2, List.cons_append]
    cases hl2 : l with
    | nil => exact absurd hl2 hl
    | cons h hs =>
      have hstop := hnostop (x[j]) (List.getElem_mem hj2)
      rw [hl2] at hstop
      exact matchElems_lit_cons_none h hs rest _ _ _ (by simpa using hstop)
  · show matchElems (.lit l :: rest) ((x ++ R).drop x.length)
      (gs ++ [(x ++ R).take x.length]) = some v
    rw [List.drop_left, List.take_left]
    exact hcont

/-- Lazy `(.+?)` before `(?:\n\n|\Z)`: when the chunk holds no newline, the
shortest succeeding candidate captures exactly the chunk. -/
theorem matchElems_dotLazy_nlnlOrEnd (x R : List Char) (rest : List RElem)
    (gs : List (List Char)) {v : List (List Char) × List Char}
    (hne : x ≠ []) (hnonl : ∀ c ∈ x, ('\n' == c) = false)
    (hcont : matchElems (.nlnlOrEnd :: rest) R (gs ++ [x]) = some v) :
    matchElems (.dotLazy :: .nlnlOrEnd :: rest) (x ++ R) gs = some v := by
  simp only [matchElems]
  have hxpos : 0 < x.length := List.length_pos.mpr hne
  apply firstSome_eq_some _ (x ++ R).length 1 x.length hxpos
  · rw [List.length_append]; omega
  · intro j hj1 hj2
    show matchElems (.nlnlOrEnd :: rest) ((x ++ R).drop j)
      (gs ++ [(x ++ R).take j]) = none
    rw [List.drop_append_of_le_length (le_of_lt hj2),
      List.drop_eq_getElem_cons hj2, List.cons_append]
    have hne2 : ('\n' == x[j]) = false := hnonl _ (List.getElem_mem hj2)
    simp [matchElems, List.isPrefixOf, hne2]
  · show matchElems (.nlnlOrEnd :: rest) ((x ++ R).drop x.length)
      (gs ++ [(x ++ R).take x.length]) = some v
    rw [List.drop_left, List.take_left]
    exact hcont

/-- The trailing `(?:\n\n|\Z)` takes the `\n\n` branch and ends the match. -/
theorem matchElems_nlnlOrEnd_take (post : List Char) (gs : List (List Char)) :
    matchElems [.nlnlOrEnd] ('\n' :: '\n' :: post) gs = some (gs, post) := by
  simp [matchElems, List.isPrefixOf]

/-! ### Matching a well-formed block -/

/-- The full decision pattern matches a well-formed block followed by a
blank line, capturing exactly the five chunks and leaving the rest of the
input unconsumed. -/
theorem matchElems_decisionBlock (q la da lb db post : List Char)
    (hq : plainChunk q = true) (hla : plainChunk la = true)
    (hda : plainChunk da = true) (hlb : plainChunk lb = true)
    (hdb : plainChunk db = true) :
    matchElems decisionPattern
      (decisionBlock q la da lb db ++ "\n\n".data ++ post) [] =
      some ([q, la, da, lb, db], post) := by
  have hinput : decisionBlock q la da lb db ++ "\n\n".data ++ post =
      "###".data ++ (' ' :: ("🎯".data ++ (' ' :: ("Decision Required:".data ++ ('\n' :: ("**".data ++ (q ++ ("**".data ++ ('\n' :: ('\n' :: ("**Option A:".data ++ (' ' :: (la ++ ("**".data ++ ('\n' :: (da ++ ("\n\n".data ++ ("**Option B:".data ++ (' ' :: (lb ++ ("**".data ++ ('\n' :: (db ++ ('\n' :: ('\n' :: (post)))))))))))))))))))))))))) := by
    simp only [decisionBlock, List.append_assoc]
    rfl
  rw [hinput]
  unfold decisionPattern
  rw [matchElems_lit_step]
  apply matchElems_wsStar_space
  · exact leadingWs_cons_not_ws '🎯' _ (by decide)
  rw [matchElems_lit_step]
  apply matchElems_wsStar_space
  · exact leadingWs_cons_not_ws 'D' _ (by decide)
  rw [matchElems_lit_step]
  apply matchElems_wsStar_nl
  · exact leadingWs_cons_not_ws '*' _ (by decide)
  rw [matchElems_lit_step]
  apply matchElems_dotLazy_lit
  · decide
  · exact plainChunk_ne_nil hq
  · exact plainChunk_no_star hq
  rw [matchElems_lit_step]
  apply matchElems_wsStar_nlnl
  · exact leadingWs_cons_not_ws '*' _ (by decide)
  rw [matchElems_lit_step]
  apply matchElems_wsStar_space
  · exact plainChunk_leadingWs hla _
  apply matchElems_dotLazy_lit
  · decide
  · exact plainChunk_ne_nil hla
  · exact plainChunk_no_star hla
  rw [matchElems_lit_step]
  apply matchElems_wsStar_nl
  · exact plainChunk_leadingWs hda _
  apply matchElems_dotLazy_lit
  · decide
  · exact plainChunk_ne_nil hda
  · exact plainChunk_no_nl hda
  rw [matchElems_lit_step]
  rw [matchElems_lit_step]
  apply matchElems_wsStar_space
  · exact plainChunk_leadingWs hlb _
  apply matchElems_dotLazy_lit
  · decide
  · exact plainChunk_ne_nil hlb
  · exact plainChunk_no_star hlb
  rw [matchElems_lit_step]
  apply matchElems_wsStar_nl
  · exact plainChunk_leadingWs hdb _
  apply matchElems_dotLazy_nlnlOrEnd
  · exact plainChunk_ne_nil hdb
  · exact plainChunk_no_nl hdb
  exact matchElems_nlnlOrEnd_take post _

/-! ### The finditer scan -/

/-- The decision pattern never matches an empty input. -/
theorem matchElems_decisionPattern_nil :
    matchElems decisionPattern [] [] = none := by
  decide

/-- The decision pattern never matches an input that does not start with
`#`. -/
theorem matchElems_decisionPattern_cons_none (c : Char) (s : List Char)
    (hc : ('#' == c) = false) :
    matchElems decisionPattern (c :: s) [] = none := by
  unfold decisionPattern
  exact matchElems_lit_cons_none '#' ['#', '#'] _ c s [] hc

/-- Scanning an empty input yields no matches, whatever the fuel. -/
theorem findAllAux_nil : ∀ fuel : Nat, findAllAux fuel [] = [] := by
  intro fuel
  cases fuel with
  | zero => rfl
  | succ n => simp [findAllAux, matchElems_decisionPattern_nil]

/-- Scanning an input free of `#` yields no matches. -/
theorem findAllAux_no_hash : ∀ (fuel : Nat) (s : List Char),
    (∀ c ∈ s, c ≠ '#') → findAllAux fuel s = [] := by
  intro fuel
  induction fuel with
  | zero => intro s _; rfl
  | succ n ih =>
    intro s hs
    cases s with
    | nil => simp [findAllAux, matchElems_decisionPattern_nil]
    | cons c t =>
      have hc : ('#' == c) = false :=
        beq_eq_false_iff_ne.mpr (Ne.symm (hs c (List.mem_cons_self c t)))
      simp only [findAllAux, matchElems_decisionPattern_cons_none c t hc]
      exact ih t fun c2 hc2 => hs c2 (List.mem_cons_of_mem c hc2)

/-- Scanning skips over a `#`-free prefix. -/
theorem findAllAux_append_no_hash : ∀ (pre : List Char) (fuel : Nat)
    (s : List Char), (∀ c ∈ pre, c ≠ '#') →
    findAllAux (pre.length + fuel) (pre ++ s) = findAllAux fuel s := by
  intro pre
  induction pre with
  | nil => intro fuel s _; simp
  | cons c p ih =>
    intro fuel s hpre
    have hc : ('#' == c) = false :=
      beq_eq_false_iff_ne.mpr (Ne.symm (hpre c (List.mem_cons_self c p)))
    have harith : (c :: p).length + fuel = (p.length + fuel) + 1 := by
      simp [List.length_cons]; omega
    rw [harith, List.cons_append]
    simp only [findAllAux, matchElems_decisionPattern_cons_none c (p ++ s) hc]
    exact ih fuel s fun c2 hc2 => hpre c2 (List.mem_cons_of_mem c hc2)

/-- One scan step over a successful match records its groups and resumes at
the end of the match. -/
theorem findAllAux_succ_match (fuel : Nat) (s : List Char)
    (gs : List (List Char)) (rest : List Char)
    (h : matchElems decisionPattern s [] = some (gs, rest))
    (hlt : rest.length < s.length) :
    findAllAux (fuel + 1) s = gs :: findAllAux fuel rest := by
  simp [findAllAux, h, hlt]

/-- When no suffix of the underlying input matches, scanning any suffix
yields no matches. -/
theorem findAllAux_of_no_match (s0 : List Char)
    (hall : ∀ i, matchElems decisionPattern (s0.drop i) [] = none) :
    ∀ (fuel : Nat) (j : Nat), findAllAux fuel (s0.drop j) = [] := by
  intro fuel
  induction fuel with
  | zero => intro j; rfl
  | succ n ih =>
    intro j
    cases hd : s0.drop j with
    | nil => exact findAllAux_nil (n + 1)
    | cons c t =>
      have hmatch : matchElems decisionPattern (c :: t) [] = none := by
        rw [← hd]; exact hall j
      simp only [findAllAux, hmatch]
      have ht : t = s0.drop (j + 1) := by
        rw [← List.tail_drop, hd]
        rfl
      rw [ht]
      exact ih (j + 1)

/-- C8: decision extraction returns the empty list on every input in which
no position matches the extractor's fixed structural pattern (no well-formed
decision block), and returns exactly one Decision — carrying exactly two
options — on every text consisting of one well-formed decision block
(heading, bold question, two bold-labeled options each with a following
description) between a hash-free preamble and a hash-free trailer. -/
theorem parseDecisionCards_block_cases :
    (∀ (gen : Nat → String) (content : String),
        (∀ i, i < content.data.length → ¬ blockAt content.data i) →
        parseDecisionCards gen content = []) ∧
    (∀ (gen : Nat → String) (pre q la da lb db post : List Char),
        (∀ c ∈ pre, c ≠ '#') → (∀ c ∈ post, c ≠ '#') →
        plainChunk q = true → plainChunk la = true → plainChunk da = true →
        plainChunk lb = true → plainChunk db = true →
        parseDecisionCards gen
            ⟨pre ++ (decisionBlock q la da lb db ++ "\n\n".data ++ post)⟩ =
          [decisionOfMatch (gen 0) [q, la, da, lb, db]] ∧
        (decisionOfMatch (gen 0) [q, la, da, lb, db]).options.length = 2) := by
  constructor
  · intro gen content h
    have hall : ∀ i, matchElems decisionPattern (content.data.drop i) [] = none := by
      intro i
      by_cases hi : i < content.data.length
      · have hni := h i hi
        unfold blockAt at hni
        cases hm : matchElems decisionPattern (content.data.drop i) [] with
        | none => rfl
        | some val => exact absurd (by rw [hm]; rfl) hni
      · rw [List.drop_eq_nil_of_le (by omega)]
        exact matchElems_decisionPattern_nil
    unfold parseDecisionCards findAll
    have h0 := findAllAux_of_no_match content.data hall (content.data.length + 1) 0
    rw [List.drop_zero] at h0
    rw [h0]
    rfl
  · intro gen pre q la da lb db post hpre hpost hq hla hda hlb hdb
    constructor
    · unfold parseDecisionCards findAll
      have hdata : (⟨pre ++ (decisionBlock q la da lb db ++ "\n\n".data ++ post)⟩ :
          String).data = pre ++ (decisionBlock q la da lb db ++ "\n\n".data ++ post) :=
        rfl
      rw [hdata]
      have harith : (pre ++ (decisionBlock q la da lb db ++ "\n\n".data ++
          post)).length + 1 =
          pre.length + ((decisionBlock q la da lb db ++ "\n\n".data ++
            post).length + 1) := by
        simp [List.length_append]
        omega
      rw [harith,
        findAllAux_append_no_hash pre _ _ hpre,
        findAllAux_succ_match _ _ _ _
          (matchElems_decisionBlock q la da lb db post hq hla hda hlb hdb)
          (by simp [List.length_append]; omega),
        findAllAux_no_hash _ post hpost]
      rfl
    · rfl

/-- C8 witness: a block-free text parses to no decisions; a text holding one
well-formed block between hash-free surroundings parses to exactly one
two-option decision. -/
theorem parseDecisionCards_block_cases_witness :
    parseDecisionCards (fun _ => "u0") "hello" = [] ∧
    parseDecisionCards (fun _ => "u1")
        ⟨"intro ".data ++ (decisionBlock "Q?".data "SQL".data "rel db".data
          "NoSQL".data "docs".data ++ "\n\n".data ++ "tail".data)⟩ =
      [decisionOfMatch "u1" ["Q?".data, "SQL".data, "rel db".data,
        "NoSQL".data, "docs".data]] := by
  constructor
  · exact parseDecisionCards_block_cases.1 (fun _ => "u0") "hello" (by decide)
  · exact (parseDecisionCards_block_cases.2 (fun _ => "u1") "intro ".data
      "Q?".data "SQL".data "rel db".data "NoSQL".data "docs".data "tail".data
      (by decide) (by decide) (by decide) (by decide) (by decide) (by decide)
      (by decide)).1

end Cofounder
